import Mathlib

/-!
Verification of the traversal/aggregation core of `lsct` (src/lsct.c).

The program walks one or more root paths with `nftw(FTW_PHYS | FTW_ACTIONRETVAL)`,
dispatches on each visited node in `visit_file`, aggregates `(mime, path)` records
in a `tsearch` binary search tree ordered by `strcmp` on the mime label
(`cmp_dict_items`), prepending within each bucket (`add_entry_record`), and finally
prints the buckets with `twalk`/`print_dict_item` in ascending label order.

C strings are modelled as lists of bytes (`List Nat`, no interior NUL).  The
`tsearch`/`twalk` pair is an external (glibc) ordered-set collaborator; its
observable contract — find-or-insert by the comparator, in-order visitation —
is embedded as a strictly sorted association list, while the logic that lives
in the source (`cmp_dict_items`, bucket creation on first insertion,
`add_entry_record` prepending, `print_dict_item` traversing from the head) is
translated directly.
-/

namespace Lsct

/-- Bytes of a C string (without the terminating NUL). -/
abbrev Bytes := List Nat

/-- Byte values used by the source: `.` is 46, `/` is 47. -/
def dot : Nat := 46

def slash : Nat := 47

/-- Bytes of a Lean string literal (ASCII only in this development). -/
def strBytes (s : String) : Bytes := s.data.map Char.toNat

/-- C `strcmp` on NUL-terminated byte strings: the first differing byte decides;
a proper prefix is smaller (its NUL terminator reads as 0, below any string byte). -/

def strcmp : Bytes → Bytes → Ordering
  | [], [] => .eq
  | [], _ :: _ => .lt
  | _ :: _, [] => .gt
  | a :: as, b :: bs =>
    if a < b then .lt else if b < a then .gt else strcmp as bs

/-- Dictionary record (`dict_item` in the source): a mime label and the head of
the bucket's singly-linked list of entry names. -/
structure dict_item where
  mime : Bytes
  list_head : List Bytes
deriving DecidableEq

/-- Comparator handed to `tsearch`: `strcmp` on the `mime` fields. -/
def cmp_dict_items (s1 s2 : dict_item) : Ordering := strcmp s1.mime s2.mime

/-- Prepend a copy of `name` to a bucket list (`add_entry_record` pushes the new
record at `*head`). -/

def add_entry_record (head : List Bytes) (name : Bytes) : List Bytes := name :: head

/-- The dictionary: the in-order contents of the `tsearch` tree, i.e. an
association list strictly sorted by `cmp_dict_items`. -/

abbrev Dict := List dict_item

/-- One `dict_add(mime, name)` call: `tsearch` finds or inserts the key by
`cmp_dict_items`; on first insertion for this mime a fresh item with an empty
bucket is created; in both cases `add_entry_record` prepends `name`. -/

def dict_add : Dict → Bytes → Bytes → Dict
  | [], mime, name => [⟨mime, add_entry_record [] name⟩]
  | i :: rest, mime, name =>
    match cmp_dict_items ⟨mime, []⟩ i with
    | .lt => ⟨mime, add_entry_record [] name⟩ :: i :: rest
    | .eq => ⟨i.mime, add_entry_record i.list_head name⟩ :: rest
    | .gt => i :: dict_add rest mime name

/-- The dictionary produced by a run's sequence of `dict_add` calls. -/
def dict_build (ps : List (Bytes × Bytes)) : Dict :=
  ps.foldl (fun d p => dict_add d p.1 p.2) []

/-- Bucket of a given mime label (empty list when the label is absent). -/
def dict_lookup : Dict → Bytes → List Bytes
  | [], _ => []
  | i :: rest, mime =>
    if strcmp mime i.mime = .eq then i.list_head else dict_lookup rest mime

/-- Lines printed for one item by `print_dict_item`, as (mime, name) pairs: the
bucket is traversed from `list_head` following `next`. -/

def print_dict_item (i : dict_item) : List (Bytes × Bytes) :=
  i.list_head.map fun n => (i.mime, n)

/-- All pairs printed by `twalk(dict, print_dict_item)`: the in-order walk visits
items in ascending `cmp_dict_items` order (each internal node at its second,
in-order visit, which glibc reports as `postorder`, and each `leaf` once). -/

def twalk_output (d : Dict) : List (Bytes × Bytes) :=
  d.flatMap print_dict_item

/-- Rendering of one line by `print_full` (`-m`): `"<mime>: <name>"` then the
terminator byte (58 is a colon, 32 a space). -/

def print_full (term : Nat) (name mime : Bytes) : Bytes :=
  mime ++ [58, 32] ++ name ++ [term]

/-- Rendering of one line by `print_name` (default): the name then the
terminator byte. -/

def print_name (term : Nat) (name _mime : Bytes) : Bytes :=
  name ++ [term]

/-- The byte stream written to stdout, for a given line-printing function. -/
def render (pf : Bytes → Bytes → Bytes) (out : List (Bytes × Bytes)) : Bytes :=
  out.flatMap fun p => pf p.2 p.1

/-- Strict sortedness of the dictionary keys, the `tsearch` tree invariant. -/
def dict_sorted (d : Dict) : Prop :=
  (d.map dict_item.mime).Pairwise fun a b => strcmp a b = .lt

/-- Fixed label substituted for zero-length regular files. -/
def empty_mime : Bytes := strBytes "inode/x-empty; charset=binary"

/-- Fixed label substituted for symbolic links. -/
def symlink_mime : Bytes := strBytes "inode/symlink"

/-- Classifier Gateway (`magic_file(libmagic, name)`): the returned mime string,
or `none` when it fails (NULL return). -/

def Magic := Bytes → Option Bytes

/-- The `typeflag` values `nftw` can pass to `visit_file` under
`FTW_PHYS | FTW_ACTIONRETVAL` (plus a catch-all for any other value). -/

inductive TypeFlag where
  | ftw_f | ftw_d | ftw_sl | ftw_dnr | ftw_ns | ftw_other
deriving DecidableEq

/-- The `st_mode & S_IFMT` cases `visit_file` switches on; `reg` carries
`st_size`, `other` covers devices, sockets and FIFOs. -/

inductive FMode where
  | reg (size : Nat) | lnk | dir | other
deriving DecidableEq

/-- Result of one `visit_file` call: `cont` is `FTW_CONTINUE`, carrying the
`(mime, name)` pair passed to `dict_add` when one was recorded; `skip_subtree`
is `FTW_SKIP_SUBTREE`; `fatal` is an `EXIT(...)` that terminates the process. -/

inductive VisitOutcome where
  | cont (rec : Option (Bytes × Bytes))
  | skip_subtree
  | fatal
deriving DecidableEq

/-- The test `name[pftw->base] == '.'`: the byte at the basename offset (the
NUL terminator, read as 0, when `base` is past the end). -/

def dot_entry (name : Bytes) (base : Nat) : Bool :=
  (name.drop base).headD 0 == dot

/-- The test `base[0]=='.' && (base[1]==0 || (base[1]=='.' && base[2]==0))`:
the basename is literally `.` or `..`. -/

def dot_dirs (name : Bytes) (base : Nat) : Bool :=
  (name.drop base) == [dot] || (name.drop base) == [dot, dot]

/-- Body of `visit_file` after the typeflag switch: compute
`skip_entry = !visit_dot_entries && name[pftw->base] == '.'`, then switch on
`st_mode & S_IFMT`: regular files are classified (zero-size shortcut, libmagic
failure is fatal), symlinks get the fixed label, directories named `.`/`..`
continue, other dot-directories have their subtree skipped, and any other mode
continues unrecorded. -/

def visit_mode (magic : Magic) (visit_dot_entries : Bool) (mode : FMode)
    (name : Bytes) (base : Nat) : VisitOutcome :=
  let skip_entry : Bool := !visit_dot_entries && dot_entry name base
  match mode with
  | .reg size =>
    if skip_entry then .cont none
    else if size > 0 then
      match magic name with
      | some mime => .cont (some (mime, name))
      | none => .fatal
    else .cont (some (empty_mime, name))
  | .lnk =>
    if skip_entry then .cont none
    else .cont (some (symlink_mime, name))
  | .dir =>
    if dot_dirs name base then .cont none
    else if skip_entry then .skip_subtree
    else .cont none
  | .other => .cont none

/-- The `nftw` callback `visit_file`: the initial selection on `typeflag`
(`FTW_DNR`/`FTW_NS` warn and continue, `FTW_D`/`FTW_F`/`FTW_SL` fall through to
the mode switch, any other flag is fatal), then the mode dispatch. -/

def visit_file (magic : Magic) (visit_dot_entries : Bool) (tf : TypeFlag)
    (mode : FMode) (name : Bytes) (base : Nat) : VisitOutcome :=
  match tf with
  | .ftw_dnr | .ftw_ns => .cont none
  | .ftw_other => .fatal
  | .ftw_f | .ftw_d | .ftw_sl => visit_mode magic visit_dot_entries mode name base

/-- Number of Classifier Gateway invocations made by one `visit_file` call: it
mirrors the branch structure of `visit_file`, whose single `magic_file` call
site is the non-empty unskipped regular-file branch. -/

def magic_calls (visit_dot_entries : Bool) (tf : TypeFlag) (mode : FMode)
    (name : Bytes) (base : Nat) : Nat :=
  match tf with
  | .ftw_dnr | .ftw_ns => 0
  | .ftw_other => 0
  | .ftw_f | .ftw_d | .ftw_sl =>
    let skip_entry : Bool := !visit_dot_entries && dot_entry name base
    match mode with
    | .reg size => if skip_entry then 0 else if size > 0 then 1 else 0
    | _ => 0

/-- A filesystem node as `nftw` reports it: a regular file with its size, a
symbolic link (live or broken, both `FTW_SL` under `FTW_PHYS`), a directory
with its entries in readdir order, a special file (device/socket/FIFO,
mode outside the three handled cases), or a directory that cannot be read
(`FTW_DNR`; its contents are unknown to the walk). -/

inductive FsTree where
  | file (name : Bytes) (size : Nat)
  | symlink (name : Bytes)
  | dir (name : Bytes) (children : List FsTree)
  | special (name : Bytes)
  | unreadable (name : Bytes)

/-- Name of a node, as it appears inside its parent directory. -/
def fsname : FsTree → Bytes
  | .file n _ => n
  | .symlink n => n
  | .dir n _ => n
  | .special n => n
  | .unreadable n => n

/-- Lift a recording visit outcome into the walk result. -/
def ofOutcome : VisitOutcome → Except Unit (List (Bytes × Bytes))
  | .cont r => .ok r.toList
  | .skip_subtree => .ok []
  | .fatal => .error ()

mutual
/-- One `nftw(dir, visit_file, 20, FTW_PHYS | FTW_ACTIONRETVAL)` traversal of
the subtree rooted at `t`, reached via full path `name` whose basename starts
at offset `base`: the `(mime, name)` records passed to `dict_add`, in call
order, or an error when some visit was fatal.  Without `FTW_DEPTH`, a directory
is visited before its contents; `FTW_SKIP_SUBTREE` on it discards the whole
subtree, and children are reached at `name ++ "/" ++ child` with the base
offset just past the slash. -/
def walk (magic : Magic) (all : Bool) (name : Bytes) (base : Nat) :
    FsTree → Except Unit (List (Bytes × Bytes))
  | .file _ size => ofOutcome (visit_file magic all .ftw_f (.reg size) name base)
  | .symlink _ => ofOutcome (visit_file magic all .ftw_sl .lnk name base)
  | .special _ => ofOutcome (visit_file magic all .ftw_f .other name base)
  | .unreadable _ => ofOutcome (visit_file magic all .ftw_dnr .dir name base)
  | .dir _ children =>
    match visit_file magic all .ftw_d .dir name base with
    | .fatal => .error ()
    | .skip_subtree => .ok []
    | .cont r =>
      match walk_children magic all name children with
      | .error e => .error e
      | .ok rs => .ok (r.toList ++ rs)

/-- Walk the entries of a directory whose full path is `name`, in order. -/
def walk_children (magic : Magic) (all : Bool) (name : Bytes) :
    List FsTree → Except Unit (List (Bytes × Bytes))
  | [] => .ok []
  | c :: cs =>
    match walk magic all (name ++ slash :: fsname c) (name.length + 1) c with
    | .error e => .error e
    | .ok rs =>
      match walk_children magic all name cs with
      | .error e => .error e
      | .ok rs2 => .ok (rs ++ rs2)
end

/-- A root argument: the path string given on the command line, the offset of
its basename (as `nftw` reports in `pftw->base` for the root itself), and the
filesystem subtree it denotes. -/

structure Root where
  path : Bytes
  base : Nat
  tree : FsTree

/-- The `scan_dir` loop of `main`: each root is walked in command-line order
and the records accumulate in the dictionary; a fatal visit terminates the
process at once, discarding everything. -/

def run_walks (magic : Magic) (all : Bool) : List Root → Except Unit (List (Bytes × Bytes))
  | [] => .ok []
  | r :: rs =>
    match walk magic all r.path r.base r.tree with
    | .error e => .error e
    | .ok ps =>
      match run_walks magic all rs with
      | .error e => .error e
      | .ok qs => .ok (ps ++ qs)

/-- The fatal terminations `main` distinguishes after argument parsing: an
`EXIT` during traversal/classification, or the final `EXIT("Nothing to list")`. -/

inductive RunError where
  | fatal
  | nothing_to_list
deriving DecidableEq

/-- The whole run after settings are fixed: walk every root accumulating
`dict_add` records, then `if(!dict) EXIT("Nothing to list")`, else
`twalk(dict, print_dict_item)` prints the sorted output. -/

def main_run (magic : Magic) (all : Bool) (roots : List Root) :
    Except RunError (List (Bytes × Bytes)) :=
  match run_walks magic all roots with
  | .error _ => .error .fatal
  | .ok ps =>
    match dict_build ps with
    | [] => .error .nothing_to_list
    | d => .ok (twalk_output d)

/-- Process exit status: 0 from the final `return 0`, `EXIT_FAILURE` (1) from
any `EXIT(...)`. -/

def exit_status : Except RunError (List (Bytes × Bytes)) → Nat
  | .ok _ => 0
  | .error _ => 1

/-- `errno` value `ENOENT`. -/
def ENOENT : Nat := 2

/-- Outcome of a root whose `nftw` call returned -1: warn and move on, or
terminate the run. -/

inductive ScanOutcome where
  | warn_continue
  | fatal
deriving DecidableEq

/-- Error handling in `scan_dir` when `nftw` fails with the given `errno`:
`if(errno == ENOENT && ignore_inaccessible_entries)` warn, else `EXIT`. -/

def scan_dir_on_error (err : Nat) (ignore_inaccessible_entries : Bool) : ScanOutcome :=
  if err == ENOENT && ignore_inaccessible_entries then .warn_continue else .fatal

/-- Basename of a path: the suffix after the last `/` byte. -/
def base_name (p : Bytes) : Bytes :=
  p.foldl (fun acc c => if c = slash then [] else acc ++ [c]) []

mutual
/-- Well-formedness of a modelled filesystem tree: every node name is free of
the path separator, so that paths built by the walk decompose uniquely. -/
def fs_wf : FsTree → Bool
  | .file n _ => decide (slash ∉ n)
  | .symlink n => decide (slash ∉ n)
  | .dir n cs => decide (slash ∉ n) && fs_wf_children cs
  | .special n => decide (slash ∉ n)
  | .unreadable n => decide (slash ∉ n)

/-- Well-formedness of a list of sibling nodes. -/
def fs_wf_children : List FsTree → Bool
  | [] => true
  | c :: cs => fs_wf c && fs_wf_children cs
end

/-- A `magic_file` hook that always fails. -/
def magicNone : Magic := fun _ => none


theorem strcmp_self (a : Bytes) : strcmp a a = .eq := by
  induction a with
  | nil => rfl
  | cons x xs ih => simp [strcmp, ih]

theorem strcmp_eq_iff {a b : Bytes} : strcmp a b = .eq ↔ a = b := by
  induction a generalizing b with
  | nil => cases b <;> simp [strcmp]
  | cons x xs ih =>
    cases b with
    | nil => simp [strcmp]
    | cons y ys =>
      by_cases hxy : x < y
      · simp [strcmp, hxy]
        omega
      · by_cases hyx : y < x
        · simp [strcmp, hxy, hyx]
          omega
        · have hxy' : x = y := by omega
          simp [strcmp, hxy, hyx, ih, hxy']

theorem strcmp_lt_ne {a b : Bytes} (h : strcmp a b = .lt) : a ≠ b := by
  intro he
  subst he
  rw [strcmp_self] at h
  exact absurd h (by simp)

theorem strcmp_gt_iff {a b : Bytes} : strcmp a b = .gt ↔ strcmp b a = .lt := by
  induction a generalizing b with
  | nil => cases b <;> simp [strcmp]
  | cons x xs ih =>
    cases b with
    | nil => simp [strcmp]
    | cons y ys =>
      by_cases hxy : x < y
      · have : ¬ y < x := by omega
        simp [strcmp, hxy, this]
      · by_cases hyx : y < x
        · simp [strcmp, hxy, hyx]
        · simp [strcmp, hxy, hyx, ih]

theorem strcmp_lt_trans {a b c : Bytes}
    (hab : strcmp a b = .lt) (hbc : strcmp b c = .lt) : strcmp a c = .lt := by
  induction a generalizing b c with
  | nil =>
    cases b with
    | nil => exact absurd hab (by simp [strcmp])
    | cons y ys => cases c with
      | nil => exact absurd hbc (by simp [strcmp])
      | cons z zs => simp [strcmp]
  | cons x xs ih =>
    cases b with
    | nil => exact absurd hab (by simp [strcmp])
    | cons y ys =>
      cases c with
      | nil => exact absurd hbc (by simp [strcmp])
      | cons z zs =>
        by_cases hxy : x < y
        · -- x < y and y ≤ z give x < z
          by_cases hyz : y < z
          · have hxz : x < z := by omega
            simp [strcmp, hxz]
          · by_cases hzy : z < y
            · exact absurd hbc (by simp [strcmp, hyz, hzy])
            · have hyz' : y = z := by omega
              have hxz : x < z := by omega
              simp [strcmp, hxz]
        · by_cases hyx : y < x
          · exact absurd hab (by simp [strcmp, hxy, hyx])
          · have hxy' : x = y := by omega
            subst hxy'
            by_cases hyz : x < z
            · simp [strcmp, hyz]
            · by_cases hzy : z < x
              · exact absurd hbc (by simp [strcmp, hyz, hzy])
              · have hxz : x = z := by omega
                subst hxz
                simp [strcmp, hxy, lt_irrefl] at hab hbc ⊢
                exact ih hab hbc


theorem mem_mime_dict_add {d : Dict} {m n x : Bytes} :
    x ∈ (dict_add d m n).map dict_item.mime ↔ x = m ∨ x ∈ d.map dict_item.mime := by
  induction d with
  | nil => simp [dict_add, add_entry_record]
  | cons i rest ih =>
    rcases hc : cmp_dict_items ⟨m, []⟩ i with hlt | heq | hgt
    · simp only [dict_add, hc, add_entry_record, List.map_cons, List.mem_cons]
    · have hme : m = i.mime := strcmp_eq_iff.mp hc
      subst hme
      simp only [dict_add, hc, add_entry_record, List.map_cons, List.mem_cons]
      tauto
    · simp only [dict_add, hc, add_entry_record, List.map_cons, List.mem_cons, ih]
      tauto

theorem dict_sorted_add {d : Dict} (h : dict_sorted d) (m n : Bytes) :
    dict_sorted (dict_add d m n) := by
  induction d with
  | nil => simp [dict_add, dict_sorted]
  | cons i rest ih =>
    rcases hc : cmp_dict_items ⟨m, []⟩ i with hlt | heq | hgt
    · -- new least item in front
      have hmi : strcmp m i.mime = .lt := hc
      simp only [dict_sorted, dict_add, hc, List.map_cons, List.pairwise_cons] at h ⊢
      refine ⟨?_, h⟩
      intro b hb
      rcases List.mem_cons.mp hb with hb | hb
      · exact hb ▸ hmi
      · exact strcmp_lt_trans hmi (h.1 b hb)
    · have hme : m = i.mime := strcmp_eq_iff.mp hc
      simp only [dict_sorted, dict_add, hc, List.map_cons, List.pairwise_cons] at h ⊢
      exact h
    · have him : strcmp i.mime m = .lt := strcmp_gt_iff.mp hc
      simp only [dict_sorted, dict_add, hc, List.map_cons, List.pairwise_cons] at h ⊢
      constructor
      · intro b hb
        rcases mem_mime_dict_add.mp hb with hb | hb
        · exact hb ▸ him
        · exact h.1 b hb
      · exact ih h.2

theorem dict_sorted_foldl {ps : List (Bytes × Bytes)} {d : Dict} (h : dict_sorted d) :
    dict_sorted (ps.foldl (fun d p => dict_add d p.1 p.2) d) := by
  induction ps generalizing d with
  | nil => exact h
  | cons p ps ih => exact ih (dict_sorted_add h p.1 p.2)

theorem dict_sorted_build (ps : List (Bytes × Bytes)) : dict_sorted (dict_build ps) :=
  dict_sorted_foldl (by simp [dict_sorted])

theorem dict_sorted_cons {i : dict_item} {rest : Dict} (h : dict_sorted (i :: rest)) :
    (∀ k ∈ rest.map dict_item.mime, strcmp i.mime k = .lt) ∧ dict_sorted rest := by
  simpa [dict_sorted, List.pairwise_cons] using h

theorem dict_lookup_eq_nil {d : Dict} {x : Bytes}
    (h : x ∉ d.map dict_item.mime) : dict_lookup d x = [] := by
  induction d with
  | nil => rfl
  | cons i rest ih =>
    simp only [List.map_cons, List.mem_cons, not_or] at h
    simp only [dict_lookup, strcmp_eq_iff, if_neg h.1]
    exact ih h.2

theorem dict_lookup_add {d : Dict} (hs : dict_sorted d) (m n x : Bytes) :
    dict_lookup (dict_add d m n) x
      = if x = m then n :: dict_lookup d m else dict_lookup d x := by
  induction d with
  | nil =>
    by_cases hxm : x = m <;>
      simp [dict_add, dict_lookup, add_entry_record, strcmp_eq_iff, hxm]
  | cons i rest ih =>
    rcases hc : cmp_dict_items ⟨m, []⟩ i with hlt | heq | hgt
    · have hmi : strcmp m i.mime = .lt := hc
      have hm_absent : m ∉ (i :: rest).map dict_item.mime := by
        intro hmem
        rw [List.map_cons] at hmem
        rcases List.mem_cons.mp hmem with hmem | hmem
        · exact strcmp_lt_ne hmi hmem
        · exact strcmp_lt_ne (strcmp_lt_trans hmi ((dict_sorted_cons hs).1 m hmem)) rfl
      have hadd : dict_add (i :: rest) m n = ⟨m, add_entry_record [] n⟩ :: i :: rest := by
        simp [dict_add, hc]
      rw [hadd]
      by_cases hxm : x = m
      · subst hxm
        have hnil := dict_lookup_eq_nil hm_absent
        simp only [dict_lookup] at hnil
        simp [dict_lookup, strcmp_self, add_entry_record, hnil]
      · simp [dict_lookup, strcmp_eq_iff, hxm]
    · have hme : m = i.mime := strcmp_eq_iff.mp hc
      subst hme
      have hadd : dict_add (i :: rest) i.mime n
          = ⟨i.mime, add_entry_record i.list_head n⟩ :: rest := by
        simp [dict_add, hc]
      rw [hadd]
      by_cases hxm : x = i.mime
      · subst hxm
        simp [dict_lookup, strcmp_self, add_entry_record]
      · simp [dict_lookup, strcmp_eq_iff, hxm]
    · have him : strcmp i.mime m = .lt := strcmp_gt_iff.mp hc
      have hmi_ne : m ≠ i.mime := fun he => strcmp_lt_ne him he.symm
      have hadd : dict_add (i :: rest) m n = i :: dict_add rest m n := by
        simp [dict_add, hc]
      rw [hadd]
      by_cases hxi : x = i.mime
      · have hxm : ¬ x = m := fun he => hmi_ne (by rw [← he, hxi])
        simp [dict_lookup, strcmp_eq_iff, hxi, hxm, Ne.symm hmi_ne]
      · rw [show dict_lookup (i :: dict_add rest m n) x = dict_lookup (dict_add rest m n) x from by
            simp [dict_lookup, strcmp_eq_iff, hxi],
          ih (dict_sorted_cons hs).2]
        by_cases hxm : x = m
        · subst hxm
          simp [dict_lookup, strcmp_eq_iff, hxi]
        · simp [dict_lookup, strcmp_eq_iff, hxm, hxi]

theorem dict_lookup_foldl (ps : List (Bytes × Bytes)) {d : Dict}
    (hs : dict_sorted d) (m : Bytes) :
    dict_lookup (ps.foldl (fun d p => dict_add d p.1 p.2) d) m
      = ((ps.filter fun p => p.1 == m).map Prod.snd).reverse ++ dict_lookup d m := by
  induction ps generalizing d with
  | nil => simp
  | cons p ps ih =>
    rw [List.foldl_cons, ih (dict_sorted_add hs p.1 p.2),
      dict_lookup_add hs p.1 p.2 m]
    by_cases hpm : p.1 = m
    · subst hpm
      simp [List.filter_cons]
    · simp [List.filter_cons, hpm, Ne.symm hpm]

theorem dict_lookup_build (ps : List (Bytes × Bytes)) (m : Bytes) :
    dict_lookup (dict_build ps) m
      = ((ps.filter fun p => p.1 == m).map Prod.snd).reverse := by
  simpa [dict_lookup] using @dict_lookup_foldl ps [] (by simp [dict_sorted]) m

theorem mem_mime_foldl (ps : List (Bytes × Bytes)) (d : Dict) (x : Bytes) :
    x ∈ (ps.foldl (fun d p => dict_add d p.1 p.2) d).map dict_item.mime
      ↔ x ∈ ps.map Prod.fst ∨ x ∈ d.map dict_item.mime := by
  induction ps generalizing d with
  | nil => simp
  | cons p ps ih =>
    rw [List.foldl_cons, ih, mem_mime_dict_add, List.map_cons, List.mem_cons]
    tauto

theorem mem_mime_build (ps : List (Bytes × Bytes)) (x : Bytes) :
    x ∈ (dict_build ps).map dict_item.mime ↔ x ∈ ps.map Prod.fst := by
  simpa using mem_mime_foldl ps [] x

theorem twalk_output_add (d : Dict) (m n : Bytes) :
    (twalk_output (dict_add d m n)).Perm ((m, n) :: twalk_output d) := by
  induction d with
  | nil => simp [twalk_output, dict_add, print_dict_item, add_entry_record]
  | cons i rest ih =>
    rcases hc : cmp_dict_items ⟨m, []⟩ i with hlt | heq | hgt
    · simp [twalk_output, dict_add, hc, print_dict_item, add_entry_record]
    · have hme : m = i.mime := strcmp_eq_iff.mp hc
      subst hme
      simp [twalk_output, dict_add, hc, print_dict_item, add_entry_record]
    · simp only [twalk_output, dict_add, hc, List.flatMap_cons]
      exact ((ih.append_left (print_dict_item i))).trans List.perm_middle

theorem twalk_output_foldl (ps : List (Bytes × Bytes)) (d : Dict) :
    (twalk_output (ps.foldl (fun d p => dict_add d p.1 p.2) d)).Perm
      (ps.reverse ++ twalk_output d) := by
  induction ps generalizing d with
  | nil => simp
  | cons p ps ih =>
    rw [List.foldl_cons]
    refine (ih (dict_add d p.1 p.2)).trans ?_
    have h1 : (twalk_output (dict_add d p.1 p.2)).Perm ((p.1, p.2) :: twalk_output d) :=
      twalk_output_add d p.1 p.2
    have h2 := h1.append_left ps.reverse
    refine h2.trans ?_
    simp only [List.reverse_cons, List.append_assoc, List.singleton_append]
    exact List.Perm.refl _

theorem twalk_output_build (ps : List (Bytes × Bytes)) :
    (twalk_output (dict_build ps)).Perm ps := by
  have h := twalk_output_foldl ps []
  simp only [twalk_output, List.flatMap_nil, List.append_nil] at h
  exact h.trans ps.reverse_perm

theorem fst_mem_of_mem_twalk_output {d : Dict} {x : Bytes × Bytes}
    (h : x ∈ twalk_output d) : x.1 ∈ d.map dict_item.mime := by
  induction d with
  | nil => simp [twalk_output] at h
  | cons i rest ih =>
    simp only [twalk_output, List.flatMap_cons, List.mem_append] at h
    rcases h with h | h
    · rcases List.mem_map.mp h with ⟨n, _, hn⟩
      simp [← hn]
    · simp [ih h]

theorem pairwise_print_dict_item (i : dict_item) :
    (print_dict_item i).Pairwise fun x y => x.1 = y.1 ∨ strcmp x.1 y.1 = .lt := by
  unfold print_dict_item
  induction i.list_head with
  | nil => simp
  | cons a l ihl =>
    simp only [List.map_cons, List.pairwise_cons]
    refine ⟨?_, ihl⟩
    intro y hy
    rcases List.mem_map.mp hy with ⟨n, _, hn⟩
    exact Or.inl (by simp [← hn])

theorem twalk_output_pairwise {d : Dict} (hs : dict_sorted d) :
    (twalk_output d).Pairwise fun x y => x.1 = y.1 ∨ strcmp x.1 y.1 = .lt := by
  induction d with
  | nil => simp [twalk_output]
  | cons i rest ih =>
    simp only [twalk_output, List.flatMap_cons]
    rw [List.pairwise_append]
    refine ⟨pairwise_print_dict_item i, ih (dict_sorted_cons hs).2, ?_⟩
    intro x hx y hy
    rcases List.mem_map.mp hx with ⟨n, _, hn⟩
    have hx1 : x.1 = i.mime := by simp [← hn]
    have hy1 : y.1 ∈ rest.map dict_item.mime := fst_mem_of_mem_twalk_output hy
    exact Or.inr (hx1 ▸ (dict_sorted_cons hs).1 y.1 hy1)

theorem dict_ext {a : Dict} (ha : dict_sorted a) :
    ∀ {b : Dict}, dict_sorted b →
    (∀ m, m ∈ a.map dict_item.mime ↔ m ∈ b.map dict_item.mime) →
    (∀ m, dict_lookup a m = dict_lookup b m) → a = b := by
  induction a with
  | nil =>
    intro b hb hmem _
    cases b with
    | nil => rfl
    | cons j restb =>
      exact absurd ((hmem j.mime).mpr (by simp)) (by simp)
  | cons i resta ih =>
    intro b hb hmem hlook
    cases b with
    | nil => exact absurd ((hmem i.mime).mp (by simp)) (by simp)
    | cons j restb =>
      have hij : i.mime = j.mime := by
        rcases List.mem_cons.mp ((hmem i.mime).mp (by simp)) with h1 | h1
        · exact h1
        · rcases List.mem_cons.mp ((hmem j.mime).mpr (by simp)) with h2 | h2
          · exact h2.symm
          · exact absurd (strcmp_lt_trans ((dict_sorted_cons ha).1 j.mime h2)
              ((dict_sorted_cons hb).1 i.mime h1)) (fun hlt => strcmp_lt_ne hlt rfl)
      have hbuck : i.list_head = j.list_head := by
        have h := hlook i.mime
        simpa [dict_lookup, strcmp_eq_iff, hij] using h
      have hitem : i = j := by
        cases i; cases j
        simp only at hij hbuck
        simp [hij, hbuck]
      subst hitem
      have hmem' : ∀ m, m ∈ resta.map dict_item.mime ↔ m ∈ restb.map dict_item.mime := by
        intro m
        constructor
        · intro hm
          have hne : m ≠ i.mime :=
            fun he => strcmp_lt_ne ((dict_sorted_cons ha).1 m hm) he.symm
          rcases List.mem_cons.mp ((hmem m).mp (by simp [hm])) with h1 | h1
          · exact absurd h1 hne
          · exact h1
        · intro hm
          have hne : m ≠ i.mime :=
            fun he => strcmp_lt_ne ((dict_sorted_cons hb).1 m hm) he.symm
          rcases List.mem_cons.mp ((hmem m).mpr (by simp [hm])) with h1 | h1
          · exact absurd h1 hne
          · exact h1
      have hlook' : ∀ m, dict_lookup resta m = dict_lookup restb m := by
        intro m
        by_cases hmi : m = i.mime
        · have h1 : m ∉ resta.map dict_item.mime := fun hm =>
            strcmp_lt_ne ((dict_sorted_cons ha).1 m hm) hmi.symm
          have h2 : m ∉ restb.map dict_item.mime := fun hm =>
            strcmp_lt_ne ((dict_sorted_cons hb).1 m hm) hmi.symm
          rw [dict_lookup_eq_nil h1, dict_lookup_eq_nil h2]
        · have h := hlook m
          simpa [dict_lookup, strcmp_eq_iff, hmi] using h
      rw [ih (dict_sorted_cons ha).2 (dict_sorted_cons hb).2 hmem' hlook']

theorem foldl_base_name_no_slash (ys : Bytes) (acc : Bytes) (h : slash ∉ ys) :
    ys.foldl (fun acc c => if c = slash then [] else acc ++ [c]) acc = acc ++ ys := by
  induction ys generalizing acc with
  | nil => simp
  | cons c cs ih =>
    simp only [List.mem_cons, not_or] at h
    have hc : ¬ c = slash := fun he => h.1 he.symm
    simp only [List.foldl_cons, if_neg hc]
    rw [ih _ h.2]
    simp

theorem base_name_no_slash {ys : Bytes} (h : slash ∉ ys) : base_name ys = ys := by
  unfold base_name
  rw [foldl_base_name_no_slash ys [] h]
  simp

theorem base_name_append (xs ys : Bytes) :
    base_name (xs ++ slash :: ys) = base_name ys := by
  unfold base_name
  rw [List.foldl_append]
  simp

theorem fs_wf_children_mem {cs : List FsTree} (h : fs_wf_children cs = true)
    {c : FsTree} (hc : c ∈ cs) : fs_wf c = true := by
  induction cs with
  | nil => simp at hc
  | cons x xs ih =>
    simp only [fs_wf_children, Bool.and_eq_true] at h
    rcases List.mem_cons.mp hc with hc | hc
    · exact hc ▸ h.1
    · exact ih h.2 hc

theorem fsname_no_slash {c : FsTree} (h : fs_wf c = true) : slash ∉ fsname c := by
  cases c <;> simp [fs_wf, fsname] at h ⊢ <;> tauto

theorem ofOutcome_mem {v : VisitOutcome} {ps : List (Bytes × Bytes)}
    (h : ofOutcome v = .ok ps) {pr : Bytes × Bytes} (hpr : pr ∈ ps) :
    v = .cont (some pr) := by
  cases v with
  | cont r =>
    cases r with
    | none =>
      simp [ofOutcome] at h
      subst h
      simp at hpr
    | some x =>
      simp [ofOutcome] at h
      subst h
      simp at hpr
      simp [hpr]
  | skip_subtree =>
    simp [ofOutcome] at h
    subst h
    simp at hpr
  | fatal => simp [ofOutcome] at h

theorem visit_mode_record {magic : Magic} {all : Bool} {mode : FMode}
    {name : Bytes} {base : Nat} {pr : Bytes × Bytes}
    (h : visit_mode magic all mode name base = .cont (some pr)) :
    pr.2 = name ∧ (!all && dot_entry name base) = false := by
  cases mode with
  | reg size =>
    cases hsk : (!all && dot_entry name base) with
    | true => simp [visit_mode, hsk] at h
    | false =>
      refine ⟨?_, rfl⟩
      cases size with
      | zero =>
        simp [visit_mode, hsk] at h
        simp [← h]
      | succ k =>
        cases hm : magic name with
        | none => simp [visit_mode, hsk, hm] at h
        | some m =>
          simp [visit_mode, hsk, hm] at h
          simp [← h]
  | lnk =>
    cases hsk : (!all && dot_entry name base) with
    | true => simp [visit_mode, hsk] at h
    | false =>
      refine ⟨?_, rfl⟩
      simp [visit_mode, hsk] at h
      simp [← h]
  | dir =>
    cases hdd : dot_dirs name base with
    | true => simp [visit_mode, hdd] at h
    | false =>
      cases hsk : (!all && dot_entry name base) with
      | true => simp [visit_mode, hdd, hsk] at h
      | false => simp [visit_mode, hdd, hsk] at h
  | other => simp [visit_mode] at h

theorem visit_file_record {magic : Magic} {all : Bool} {tf : TypeFlag} {mode : FMode}
    {name : Bytes} {base : Nat} {pr : Bytes × Bytes}
    (h : visit_file magic all tf mode name base = .cont (some pr)) :
    pr.2 = name ∧ (!all && dot_entry name base) = false := by
  cases tf with
  | ftw_dnr => simp [visit_file] at h
  | ftw_ns => simp [visit_file] at h
  | ftw_other => simp [visit_file] at h
  | ftw_f => exact visit_mode_record h
  | ftw_d => exact visit_mode_record h
  | ftw_sl => exact visit_mode_record h

theorem walk_children_mem {magic : Magic} {all : Bool} {name : Bytes}
    {cs : List FsTree} {ps : List (Bytes × Bytes)}
    (h : walk_children magic all name cs = .ok ps)
    {pr : Bytes × Bytes} (hpr : pr ∈ ps) :
    ∃ c ∈ cs, ∃ qs,
      walk magic all (name ++ slash :: fsname c) (name.length + 1) c = .ok qs ∧ pr ∈ qs := by
  induction cs generalizing ps with
  | nil =>
    simp [walk_children] at h
    subst h
    simp at hpr
  | cons c cs ih =>
    rw [walk_children] at h
    cases hw : walk magic all (name ++ slash :: fsname c) (name.length + 1) c with
    | error e => rw [hw] at h; simp at h
    | ok rs =>
      rw [hw] at h
      cases hwc : walk_children magic all name cs with
      | error e => rw [hwc] at h; simp at h
      | ok rs2 =>
        rw [hwc] at h
        simp only [Except.ok.injEq] at h
        subst h
        rcases List.mem_append.mp hpr with hl | hr
        · exact ⟨c, by simp, rs, hw, hl⟩
        · obtain ⟨c2, hc2, qs, hwq, hpq⟩ := ih hwc hr
          exact ⟨c2, by simp [hc2], qs, hwq, hpq⟩

theorem walk_no_dot_aux (N : Nat) :
    ∀ t : FsTree, sizeOf t ≤ N →
    ∀ (magic : Magic) (name : Bytes) (base : Nat) (ps : List (Bytes × Bytes)),
      fs_wf t = true → base_name name = name.drop base →
      walk magic false name base t = .ok ps →
      ∀ pr ∈ ps, (base_name pr.2).headD 0 ≠ dot := by
  induction N with
  | zero =>
    intro t ht
    exfalso
    cases t <;> simp at ht
  | succ N ih =>
    intro t ht magic name base ps hwf hbase hwalk pr hpr
    cases t with
    | file n size =>
      obtain ⟨h2, hsk⟩ := visit_file_record (ofOutcome_mem (by simpa [walk] using hwalk) hpr)
      rw [h2, hbase]
      simpa [dot_entry] using hsk
    | symlink n =>
      obtain ⟨h2, hsk⟩ := visit_file_record (ofOutcome_mem (by simpa [walk] using hwalk) hpr)
      rw [h2, hbase]
      simpa [dot_entry] using hsk
    | special n =>
      obtain ⟨h2, hsk⟩ := visit_file_record (ofOutcome_mem (by simpa [walk] using hwalk) hpr)
      rw [h2, hbase]
      simpa [dot_entry] using hsk
    | unreadable n =>
      obtain ⟨h2, hsk⟩ := visit_file_record (ofOutcome_mem (by simpa [walk] using hwalk) hpr)
      rw [h2, hbase]
      simpa [dot_entry] using hsk
    | dir n cs =>
      rw [walk] at hwalk
      cases hv : visit_file magic false .ftw_d .dir name base with
      | fatal => rw [hv] at hwalk; simp at hwalk
      | skip_subtree =>
        rw [hv] at hwalk
        simp only [Except.ok.injEq] at hwalk
        subst hwalk
        simp at hpr
      | cont r =>
        rw [hv] at hwalk
        cases hwc : walk_children magic false name cs with
        | error e => rw [hwc] at hwalk; simp at hwalk
        | ok rs =>
          rw [hwc] at hwalk
          simp only [Except.ok.injEq] at hwalk
          subst hwalk
          rcases List.mem_append.mp hpr with hl | hr
          · have hrp : r = some pr := by
              cases r with
              | none => simp at hl
              | some x => simp at hl; simp [hl]
            obtain ⟨h2, hsk⟩ := visit_file_record (hrp ▸ hv)
            rw [h2, hbase]
            simpa [dot_entry] using hsk
          · obtain ⟨c, hc, qs, hwq, hpq⟩ := walk_children_mem hwc hr
            have hsz : sizeOf c ≤ N := by
              have h1 : sizeOf c < sizeOf cs := List.sizeOf_lt_of_mem hc
              have h2 : sizeOf (FsTree.dir n cs) = 1 + sizeOf n + sizeOf cs := by simp
              omega
            have hwfd : decide (slash ∉ n) = true ∧ fs_wf_children cs = true := by
              simpa [fs_wf, Bool.and_eq_true] using hwf
            have hwfc : fs_wf c = true := fs_wf_children_mem hwfd.2 hc
            have hb2 : base_name (name ++ slash :: fsname c)
                = (name ++ slash :: fsname c).drop (name.length + 1) := by
              rw [base_name_append, base_name_no_slash (fsname_no_slash hwfc),
                show name ++ slash :: fsname c = (name ++ [slash]) ++ fsname c by simp,
                List.drop_left' (by simp)]
            exact ih c hsz magic _ _ qs hwfc hb2 hwq pr hpq

theorem main_run_ok {magic : Magic} {all : Bool} {roots : List Root}
    {out : List (Bytes × Bytes)} (h : main_run magic all roots = .ok out) :
    ∃ ps, run_walks magic all roots = .ok ps ∧ dict_build ps ≠ [] ∧
      out = twalk_output (dict_build ps) := by
  unfold main_run at h
  cases hrw : run_walks magic all roots with
  | error e => rw [hrw] at h; simp at h
  | ok ps =>
    rw [hrw] at h
    have h2 : (match dict_build ps with
        | [] => (Except.error RunError.nothing_to_list :
            Except RunError (List (Bytes × Bytes)))
        | d => Except.ok (twalk_output d)) = Except.ok out := h
    cases hd : dict_build ps with
    | nil => rw [hd] at h2; simp at h2
    | cons i rest =>
      rw [hd] at h2
      simp only [Except.ok.injEq] at h2
      exact ⟨ps, rfl, by simp [hd], by rw [hd, ← h2]⟩

/-- C1: in any completed run, every printed path appears under exactly one
content-type label, all paths sharing a label are contiguous in the output, and
the sequence of distinct labels is strictly ascending in `strcmp` order.
Output pairs are `(label, path)`; the first conjunct gives strict ascent of
distinct labels, the second contiguity (between two positions sharing a label
no other label intervenes), the third that a path printed at two positions
(given the walk records pairwise distinct paths, as `nftw` visits each
physical node once) is the same position, hence has exactly one label. -/
theorem lsct_C1 (magic : Magic) (all : Bool) (roots : List Root)
    (out : List (Bytes × Bytes)) (h : main_run magic all roots = .ok out) :
    (∀ i j (hi : i < out.length) (hj : j < out.length), i < j →
      (out.get ⟨i, hi⟩).1 ≠ (out.get ⟨j, hj⟩).1 →
      strcmp (out.get ⟨i, hi⟩).1 (out.get ⟨j, hj⟩).1 = .lt)
    ∧ (∀ i j k (hi : i < out.length) (hj : j < out.length) (hk : k < out.length),
      i ≤ j → j ≤ k → (out.get ⟨i, hi⟩).1 = (out.get ⟨k, hk⟩).1 →
      (out.get ⟨j, hj⟩).1 = (out.get ⟨i, hi⟩).1)
    ∧ (∀ ps, run_walks magic all roots = .ok ps → (ps.map Prod.snd).Nodup →
      ∀ i j (hi : i < out.length) (hj : j < out.length),
        (out.get ⟨i, hi⟩).2 = (out.get ⟨j, hj⟩).2 → i = j) := by
  obtain ⟨ps, hrw, _, hout⟩ := main_run_ok h
  subst hout
  have hpw := twalk_output_pairwise (dict_sorted_build ps)
  have part1 : ∀ i j (hi : i < (twalk_output (dict_build ps)).length)
      (hj : j < (twalk_output (dict_build ps)).length), i < j →
      ((twalk_output (dict_build ps)).get ⟨i, hi⟩).1
        ≠ ((twalk_output (dict_build ps)).get ⟨j, hj⟩).1 →
      strcmp ((twalk_output (dict_build ps)).get ⟨i, hi⟩).1
        ((twalk_output (dict_build ps)).get ⟨j, hj⟩).1 = .lt := by
    intro i j hi hj hij hne
    have hp := List.pairwise_iff_getElem.mp hpw i j hi hj hij
    rw [List.get_eq_getElem, List.get_eq_getElem]
    rcases hp with hp | hp
    · exact absurd (by simpa using hp) hne
    · exact hp
  refine ⟨part1, ?_, ?_⟩
  · intro i j k hi hj hk hij hjk heq
    by_contra hne
    have hij' : i < j := by
      rcases Nat.lt_or_ge i j with h1 | h1
      · exact h1
      · exfalso
        apply hne
        have he : i = j := Nat.le_antisymm hij h1
        subst he
        rfl
    have hjk' : j < k := by
      rcases Nat.lt_or_ge j k with h1 | h1
      · exact h1
      · exfalso
        apply hne
        have he : j = k := Nat.le_antisymm hjk h1
        subst he
        exact heq.symm
    have l1 := part1 i j hi hj hij' (fun he => hne he.symm)
    have l2 := part1 j k hj hk hjk' (fun he => hne (he.trans heq.symm))
    exact strcmp_lt_ne (strcmp_lt_trans l1 l2) heq
  · intro ps2 hrw2 hnd i j hi hj hpr
    have hps : ps2 = ps := by
      rw [hrw2] at hrw
      injection hrw
    subst hps
    have hperm : ((twalk_output (dict_build ps2)).map Prod.snd).Perm (ps2.map Prod.snd) :=
      (twalk_output_build ps2).map Prod.snd
    have hnd2 : ((twalk_output (dict_build ps2)).map Prod.snd).Nodup :=
      hperm.nodup_iff.mpr hnd
    have hinj := List.nodup_iff_injective_getElem.mp hnd2
    have hlen : (twalk_output (dict_build ps2)).length
        = ((twalk_output (dict_build ps2)).map Prod.snd).length := by simp
    have he : (⟨i, hlen ▸ hi⟩ : Fin ((twalk_output (dict_build ps2)).map Prod.snd).length)
        = ⟨j, hlen ▸ hj⟩ := hinj (by
      simp only [List.getElem_map]
      rw [List.get_eq_getElem, List.get_eq_getElem] at hpr
      exact hpr)
    exact congrArg Fin.val he

/-- C1 witness: a run over an empty file `a` and a symlink `b`, with indices 0
and 1 of the two-line output. -/

theorem lsct_C1_witness :
    main_run magicNone false [⟨[97], 0, .file [97] 0⟩, ⟨[98], 0, .symlink [98]⟩]
      = .ok [(symlink_mime, [98]), (empty_mime, [97])]
    ∧ strcmp symlink_mime empty_mime = .lt := by
  have h : main_run magicNone false [⟨[97], 0, .file [97] 0⟩, ⟨[98], 0, .symlink [98]⟩]
      = .ok [(symlink_mime, [98]), (empty_mime, [97])] := by rfl
  exact ⟨h, (lsct_C1 magicNone false _ _ h).1 0 1
    (by decide) (by decide) (by decide) (by decide)⟩

theorem twalk_filter {d : Dict} (hs : dict_sorted d) (m : Bytes) :
    (twalk_output d).filter (fun pr => pr.1 == m)
      = (dict_lookup d m).map fun n => (m, n) := by
  induction d with
  | nil => simp [twalk_output, dict_lookup]
  | cons i rest ih =>
    simp only [twalk_output, List.flatMap_cons, List.filter_append]
    by_cases hm : m = i.mime
    · have h1 : (print_dict_item i).filter (fun pr => pr.1 == m) = print_dict_item i := by
        apply List.filter_eq_self.mpr
        intro a ha
        rcases List.mem_map.mp ha with ⟨n, _, hn⟩
        simp [← hn, beq_iff_eq, hm]
      have h2 : ((rest.flatMap print_dict_item).filter fun pr => pr.1 == m) = [] := by
        apply List.filter_eq_nil_iff.mpr
        intro a ha
        have hlt := (dict_sorted_cons hs).1 a.1
          (@fst_mem_of_mem_twalk_output rest a ha)
        simp only [beq_iff_eq, decide_eq_true_eq]
        exact fun he => strcmp_lt_ne hlt (he.trans hm).symm
      rw [h1, h2, List.append_nil, hm]
      simp [dict_lookup, strcmp_self, print_dict_item]
    · have h1 : (print_dict_item i).filter (fun pr => pr.1 == m) = [] := by
        apply List.filter_eq_nil_iff.mpr
        intro a ha
        rcases List.mem_map.mp ha with ⟨n, _, hn⟩
        simp only [← hn, beq_iff_eq, decide_eq_true_eq]
        exact fun he => hm he.symm
      rw [h1, List.nil_append,
        show rest.flatMap print_dict_item = twalk_output rest from rfl,
        ih (dict_sorted_cons hs).2]
      have : dict_lookup (i :: rest) m = dict_lookup rest m := by
        simp [dict_lookup, strcmp_eq_iff, hm]
      rw [this]

/-- C6: within every bucket, the ordered walk emits the paths in the reverse of
the order in which they were inserted into that bucket (most recently inserted
first): `add_entry_record` prepends to the bucket list and `print_dict_item`
traverses the list from its head. -/

theorem lsct_C6 (ps : List (Bytes × Bytes)) (m : Bytes) :
    ((twalk_output (dict_build ps)).filter (fun pr => pr.1 == m)).map Prod.snd
      = ((ps.filter (fun pr => pr.1 == m)).map Prod.snd).reverse := by
  rw [twalk_filter (dict_sorted_build ps) m, dict_lookup_build, List.map_map]
  have hcomp : (Prod.snd ∘ fun n : Bytes => (m, n)) = id := rfl
  rw [hcomp, List.map_id]

/-- C2: a visited zero-length regular file that the hidden-entry filter does not
exclude is recorded with exactly `"inode/x-empty; charset=binary"` and the
Classifier Gateway is not invoked for it (zero calls, and the outcome does not
depend on the gateway at all); a visited regular file of positive size incurs
exactly one gateway invocation and the returned label is the one recorded. -/

theorem lsct_C2 (magic : Magic) (all : Bool) (name : Bytes) (base : Nat)
    (hns : (!all && dot_entry name base) = false) :
    (visit_file magic all .ftw_f (.reg 0) name base = .cont (some (empty_mime, name))
      ∧ magic_calls all .ftw_f (.reg 0) name base = 0
      ∧ ∀ magic2 : Magic, visit_file magic2 all .ftw_f (.reg 0) name base
          = visit_file magic all .ftw_f (.reg 0) name base)
    ∧ ∀ size mime, 0 < size → magic name = some mime →
      visit_file magic all .ftw_f (.reg size) name base = .cont (some (mime, name))
        ∧ magic_calls all .ftw_f (.reg size) name base = 1 := by
  constructor
  · refine ⟨?_, ?_, ?_⟩ <;> simp [visit_file, visit_mode, magic_calls, hns]
  · intro size mime hpos hm
    constructor <;> simp [visit_file, visit_mode, magic_calls, hns, hm, hpos]

/-- C2 witness: file `a` under default settings, size 0 and size 5, with a
gateway returning the label `x`. -/

theorem lsct_C2_witness :
    ((!false && dot_entry [97] 0) = false)
    ∧ visit_file (fun _ => some [120]) false .ftw_f (.reg 0) [97] 0
        = .cont (some (empty_mime, [97]))
    ∧ visit_file (fun _ => some [120]) false .ftw_f (.reg 5) [97] 0
        = .cont (some ([120], [97]))
    ∧ magic_calls false .ftw_f (.reg 5) [97] 0 = 1 := by
  have hns : (!false && dot_entry [97] 0) = false := by decide
  have h := lsct_C2 (fun _ => some [120]) false [97] 0 hns
  exact ⟨hns, h.1.1, (h.2 5 [120] (by decide) rfl).1, (h.2 5 [120] (by decide) rfl).2⟩

/-- C3: a visited symbolic link (live or broken, both `FTW_SL` under `FTW_PHYS`)
that the hidden-entry filter does not exclude is recorded with exactly
`"inode/symlink"`, and the Classifier Gateway is never invoked for symbolic
links, directories, or zero-length regular files, whatever the inputs. -/

theorem lsct_C3 (magic : Magic) (all : Bool) (name : Bytes) (base : Nat) :
    ((!all && dot_entry name base) = false →
      visit_file magic all .ftw_sl .lnk name base = .cont (some (symlink_mime, name)))
    ∧ ∀ tf, magic_calls all tf .lnk name base = 0
        ∧ magic_calls all tf .dir name base = 0
        ∧ magic_calls all tf (.reg 0) name base = 0 := by
  constructor
  · intro hns
    simp [visit_file, visit_mode, hns]
  · intro tf
    refine ⟨?_, ?_, ?_⟩ <;> cases tf <;> simp [magic_calls]

/-- C3 witness: symlink `b` under default settings. -/
theorem lsct_C3_witness :
    ((!false && dot_entry [98] 0) = false)
    ∧ visit_file magicNone false .ftw_sl .lnk [98] 0 = .cont (some (symlink_mime, [98])) :=
  ⟨by decide, (lsct_C3 magicNone false [98] 0).1 (by decide)⟩

theorem run_walks_error_of_mem {magic : Magic} {all : Bool} {roots : List Root}
    (h : ∃ r ∈ roots, walk magic all r.path r.base r.tree = .error ()) :
    run_walks magic all roots = .error () := by
  induction roots with
  | nil => simp at h
  | cons r rs ih =>
    obtain ⟨r0, hr0, hw⟩ := h
    rcases List.mem_cons.mp hr0 with he | he
    · subst he
      simp [run_walks, hw]
    · cases hwr : walk magic all r.path r.base r.tree with
      | error e => simp [run_walks, hwr]
      | ok ps => simp [run_walks, hwr, ih ⟨r0, he, hw⟩]

/-- C4: a Classifier Gateway failure on a file it was asked to classify is
fatal at the visit (`EXIT`), and a run in which any root's walk hit a fatal
visit terminates with the fatal error and never produces an output list —
entries already added to the index before the failure are discarded, since
printing happens only after all roots complete. -/

theorem lsct_C4 (magic : Magic) (all : Bool) :
    (∀ name base size, (!all && dot_entry name base) = false → magic name = none →
      visit_file magic all .ftw_f (.reg (size + 1)) name base = .fatal)
    ∧ ∀ roots : List Root,
      (∃ r ∈ roots, walk magic all r.path r.base r.tree = .error ()) →
      main_run magic all roots = .error .fatal
        ∧ ∀ out, main_run magic all roots ≠ .ok out := by
  constructor
  · intro name base size hns hm
    simp [visit_file, visit_mode, hns, hm]
  · intro roots hex
    have hrw := run_walks_error_of_mem hex
    constructor
    · simp [main_run, hrw]
    · intro out hok
      obtain ⟨ps, hrw2, _, _⟩ := main_run_ok hok
      rw [hrw] at hrw2
      exact absurd hrw2 (by simp)

/-- C4 witness: a failing gateway on the non-empty file `a`. -/
theorem lsct_C4_witness :
    ((!false && dot_entry [97] 0) = false)
    ∧ magicNone [97] = none
    ∧ visit_file magicNone false .ftw_f (.reg 1) [97] 0 = .fatal
    ∧ main_run magicNone false [⟨[97], 0, .file [97] 1⟩] = .error .fatal := by
  have h := lsct_C4 magicNone false
  refine ⟨by decide, rfl, h.1 [97] 0 0 (by decide) rfl, ?_⟩
  exact (h.2 [⟨[97], 0, .file [97] 1⟩] ⟨⟨[97], 0, .file [97] 1⟩, by simp, by rfl⟩).1

/-- C5 counterexample: with `-i` enabled, a root that fails with `EACCES` (13)
is still fatal — the claim that tolerance applies regardless of the failure
reason is false, because `scan_dir` tests `errno == ENOENT` specifically. -/

theorem lsct_C5_cex :
    scan_dir_on_error 13 true = ScanOutcome.fatal
    ∧ ScanOutcome.fatal ≠ ScanOutcome.warn_continue := by
  decide

/-- C5 (amended): a root open failure is downgraded to a warning exactly when
inaccessible-root tolerance is enabled and the failure reason is `ENOENT`;
every other reason is fatal even under `-i`, and with tolerance disabled every
failure is fatal. -/

theorem lsct_C5 (err : Nat) (ignore : Bool) :
    (scan_dir_on_error err ignore = .warn_continue ↔ ignore = true ∧ err = ENOENT)
    ∧ scan_dir_on_error err false = .fatal := by
  constructor
  · constructor
    · intro h
      cases hc : (err == ENOENT && ignore) with
      | false => simp [scan_dir_on_error, hc] at h
      | true =>
        have := Bool.and_eq_true_iff.mp hc
        exact ⟨this.2, Nat.beq_eq ▸ (by simpa using this.1)⟩
    · rintro ⟨hig, he⟩
      simp [scan_dir_on_error, hig, he]
  · simp [scan_dir_on_error]

theorem main_run_ok_ne_nil {magic : Magic} {all : Bool} {roots : List Root}
    {out : List (Bytes × Bytes)} (h : main_run magic all roots = .ok out) : out ≠ [] := by
  obtain ⟨ps, hrw, hdn, hout⟩ := main_run_ok h
  have hpsne : ps ≠ [] := fun he => hdn (by simp [he, dict_build])
  have hl : out.length = ps.length := by
    rw [hout]
    exact (twalk_output_build ps).length_eq
  intro ho
  rw [ho] at hl
  exact hpsne (List.eq_nil_of_length_eq_zero hl.symm)

/-- C8: a traversal that completes with zero recorded entries terminates with
the fatal "nothing to list" condition, and success (exit status 0) happens only
when at least one entry was recorded and the printed output is nonempty. -/

theorem lsct_C8 (magic : Magic) (all : Bool) (roots : List Root) :
    (run_walks magic all roots = .ok [] → main_run magic all roots = .error .nothing_to_list)
    ∧ (∀ out, main_run magic all roots = .ok out →
        out ≠ [] ∧ ∃ ps, run_walks magic all roots = .ok ps ∧ ps ≠ [])
    ∧ (exit_status (main_run magic all roots) = 0 →
        ∃ out, main_run magic all roots = .ok out ∧ out ≠ []) := by
  refine ⟨?_, ?_, ?_⟩
  · intro h
    simp [main_run, h, dict_build]
  · intro out hok
    obtain ⟨ps, hrw, hdn, _⟩ := main_run_ok hok
    exact ⟨main_run_ok_ne_nil hok,
      ps, hrw, fun he => hdn (by simp [he, dict_build])⟩
  · intro hes
    cases hmr : main_run magic all roots with
    | error e => rw [hmr] at hes; simp [exit_status] at hes
    | ok out => exact ⟨out, rfl, main_run_ok_ne_nil hmr⟩

/-- C8 witness: an empty root list records nothing and fails, a one-file run
succeeds with nonempty output. -/

theorem lsct_C8_witness :
    run_walks magicNone false ([] : List Root) = .ok []
    ∧ main_run magicNone false ([] : List Root) = .error .nothing_to_list
    ∧ main_run magicNone false [⟨[97], 0, .file [97] 0⟩] = .ok [(empty_mime, [97])]
    ∧ [(empty_mime, [97])] ≠ ([] : List (Bytes × Bytes)) := by
  have h1 : main_run magicNone false [⟨[97], 0, .file [97] 0⟩] = .ok [(empty_mime, [97])] := by
    rfl
  exact ⟨rfl, (lsct_C8 magicNone false []).1 rfl, h1,
    ((lsct_C8 magicNone false [⟨[97], 0, .file [97] 0⟩]).2.1 _ h1).1⟩

theorem dict_build_append_comm {psA psB : List (Bytes × Bytes)}
    (hdisj : ∀ m, m ∈ psA.map Prod.fst → m ∉ psB.map Prod.fst) :
    dict_build (psA ++ psB) = dict_build (psB ++ psA) := by
  apply dict_ext (dict_sorted_build _) (dict_sorted_build _)
  · intro m
    rw [mem_mime_build, mem_mime_build, List.map_append, List.map_append,
      List.mem_append, List.mem_append]
    tauto
  · intro m
    rw [dict_lookup_build, dict_lookup_build, List.filter_append, List.filter_append]
    by_cases hA : m ∈ psA.map Prod.fst
    · have hB : (psB.filter fun p => p.1 == m) = [] := by
        apply List.filter_eq_nil_iff.mpr
        intro p hp
        simp only [beq_iff_eq, decide_eq_true_eq]
        exact fun he => hdisj m hA (List.mem_map.mpr ⟨p, hp, he⟩)
      rw [hB]
      simp
    · have hA2 : (psA.filter fun p => p.1 == m) = [] := by
        apply List.filter_eq_nil_iff.mpr
        intro p hp
        simp only [beq_iff_eq, decide_eq_true_eq]
        exact fun he => hA (List.mem_map.mpr ⟨p, hp, he⟩)
      rw [hA2]
      simp

/-- C9: two roots whose walks produce no label in common yield identical
complete output — as printed pairs and as the rendered byte stream for any
line format — whichever order the roots are given in. -/

theorem lsct_C9 (magic : Magic) (all : Bool) (ra rb : Root)
    (psA psB : List (Bytes × Bytes))
    (hA : walk magic all ra.path ra.base ra.tree = .ok psA)
    (hB : walk magic all rb.path rb.base rb.tree = .ok psB)
    (hdisj : ∀ m, m ∈ psA.map Prod.fst → m ∉ psB.map Prod.fst) :
    main_run magic all [ra, rb] = main_run magic all [rb, ra]
    ∧ ∀ pf : Bytes → Bytes → Bytes,
      (main_run magic all [ra, rb]).map (render pf)
        = (main_run magic all [rb, ra]).map (render pf) := by
  have h1 : run_walks magic all [ra, rb] = .ok (psA ++ psB) := by
    simp [run_walks, hA, hB]
  have h2 : run_walks magic all [rb, ra] = .ok (psB ++ psA) := by
    simp [run_walks, hA, hB]
  have hd : dict_build (psA ++ psB) = dict_build (psB ++ psA) :=
    dict_build_append_comm hdisj
  have hmain : main_run magic all [ra, rb] = main_run magic all [rb, ra] := by
    simp [main_run, h1, h2, hd]
  exact ⟨hmain, fun pf => by rw [hmain]⟩

/-- C9 witness: an empty file `a` (label `inode/x-empty; charset=binary`) and a
symlink `b` (label `inode/symlink`) as two roots, in both orders. -/

theorem lsct_C9_witness :
    walk magicNone false [97] 0 (.file [97] 0) = .ok [(empty_mime, [97])]
    ∧ walk magicNone false [98] 0 (.symlink [98]) = .ok [(symlink_mime, [98])]
    ∧ main_run magicNone false [⟨[97], 0, .file [97] 0⟩, ⟨[98], 0, .symlink [98]⟩]
        = main_run magicNone false [⟨[98], 0, .symlink [98]⟩, ⟨[97], 0, .file [97] 0⟩] := by
  refine ⟨by rfl, by rfl, ?_⟩
  exact (lsct_C9 magicNone false ⟨[97], 0, .file [97] 0⟩ ⟨[98], 0, .symlink [98]⟩
    [(empty_mime, [97])] [(symlink_mime, [98])] (by rfl) (by rfl)
    (by intro m hm; simp at hm; subst hm; decide)).1

/-- C7: under default settings, a completed walk over a well-formed subtree
records no entry whose base name starts with a dot (non-directory dot entries
are skipped and dot directories are pruned whole); with `-a` enabled, dot
files and dot symlinks are recorded and every directory's contents — dot
directories included — are visited. -/

theorem lsct_C7 :
    (∀ (magic : Magic) (t : FsTree) (name : Bytes) (base : Nat)
        (ps : List (Bytes × Bytes)),
      fs_wf t = true → base_name name = name.drop base →
      walk magic false name base t = .ok ps →
      ∀ pr ∈ ps, (base_name pr.2).headD 0 ≠ dot)
    ∧ (∀ (magic : Magic) (name : Bytes) (base : Nat),
      visit_file magic true .ftw_f (.reg 0) name base = .cont (some (empty_mime, name))
      ∧ visit_file magic true .ftw_sl .lnk name base = .cont (some (symlink_mime, name)))
    ∧ (∀ (magic : Magic) (dname name : Bytes) (base : Nat) (cs : List FsTree),
      walk magic true name base (.dir dname cs) = walk_children magic true name cs) := by
  refine ⟨?_, ?_, ?_⟩
  · intro magic t name base ps hwf hbase hwalk
    exact walk_no_dot_aux (sizeOf t) t (le_refl _) magic name base ps hwf hbase hwalk
  · intro magic name base
    constructor <;> simp [visit_file, visit_mode]
  · intro magic dname name base cs
    have hv : visit_file magic true .ftw_d .dir name base = .cont none := by
      simp only [visit_file, visit_mode, Bool.not_true, Bool.false_and]
      split
      · rfl
      · rfl
    rw [walk, hv]
    cases hwc : walk_children magic true name cs with
    | error e => rfl
    | ok rs => simp

/-- C7 witness: the default walk over the well-formed single file `a` records
only `a`, whose base name does not start with a dot. -/

theorem lsct_C7_witness :
    fs_wf (FsTree.file [97] 0) = true
    ∧ base_name [97] = ([97] : Bytes).drop 0
    ∧ walk magicNone false [97] 0 (.file [97] 0) = .ok [(empty_mime, [97])]
    ∧ (base_name ([97] : Bytes)).headD 0 ≠ dot := by
  refine ⟨by decide, by decide, by rfl, ?_⟩
  exact lsct_C7.1 magicNone (.file [97] 0) [97] 0 [(empty_mime, [97])]
    (by decide) (by decide) (by rfl) (empty_mime, [97]) (by simp)

/-- C10: under default settings, a root argument that is a directory whose base
name starts with a dot but is not literally `.` or `..` is pruned entirely:
its walk records nothing, and a run with it as the only root terminates with
the fatal "nothing to list" condition. -/

theorem lsct_C10 (magic : Magic) (nm : Bytes) (base : Nat) (dname : Bytes)
    (cs : List FsTree)
    (hd : (nm.drop base).headD 0 = dot)
    (h1 : nm.drop base ≠ [dot]) (h2 : nm.drop base ≠ [dot, dot]) :
    walk magic false nm base (.dir dname cs) = .ok []
    ∧ main_run magic false [⟨nm, base, .dir dname cs⟩] = .error .nothing_to_list := by
  have hde : dot_entry nm base = true := by
    unfold dot_entry
    exact beq_iff_eq.mpr hd
  have hdd : dot_dirs nm base = false := by simp [dot_dirs, h1, h2]
  have hv : visit_file magic false .ftw_d .dir nm base = .skip_subtree := by
    simp [visit_file, visit_mode, hdd, hde]
  have hw : walk magic false nm base (.dir dname cs) = .ok [] := by
    rw [walk, hv]
  refine ⟨hw, ?_⟩
  have hrw : run_walks magic false [⟨nm, base, .dir dname cs⟩] = .ok [] := by
    simp [run_walks, hw]
  simp [main_run, hrw, dict_build]

/-- C10 witness: the root `.git` containing one ordinary file. -/
theorem lsct_C10_witness :
    (([46, 103, 105, 116] : Bytes).drop 0).headD 0 = dot
    ∧ main_run magicNone false
        [⟨[46, 103, 105, 116], 0, .dir [46, 103, 105, 116] [.file [97] 0]⟩]
      = .error .nothing_to_list :=
  ⟨by decide, (lsct_C10 magicNone [46, 103, 105, 116] 0 [46, 103, 105, 116]
    [.file [97] 0] (by decide) (by decide) (by decide)).2⟩

end Lsct
